/-
Verification of the novo_muta trio mutation model (utilities.cc,
simulation_model.cc, bin_driver.cc, count_bin_trio.cc).

Integer read counts are modelled with ℕ, floating-point quantities with ℚ
(the claims checked here are exact arithmetic facts, not rounding facts),
and the C random draws (rand, gsl_ran_discrete) are modelled by passing the
drawn values in explicitly, constrained to the support of the weights.
-/
import Mathlib

set_option maxRecDepth 100000

namespace NovoMuta

/-- One ReadData record: the four nucleotide read counts (A, C, G, T),
mirroring the uint16_t reads[4] field of union ReadData in utilities.cc. -/
abbrev ReadData := ℕ × ℕ × ℕ × ℕ

/-- Total number of reads in one ReadData (the n of the Dirichlet
multinomial). -/
def sumReads (v : ReadData) : ℕ := v.1 + v.2.1 + v.2.2.1 + v.2.2.2

/-- EnumerateNucleotideCounts of utilities.cc (lines 222-238): coverage 1
returns the four rows of the 4 x 4 identity matrix; for larger coverage,
recursive row j expands into the four rows i + j*4, each equal to identity
row i plus recursive row j.  The C code never returns for coverage below 1
(the recursion has no base case there); that argument range is modelled by
the empty list and excluded by the hypotheses of the theorems below. -/
def enumerateNucleotideCounts : ℕ → List ReadData
  | 0 => []
  | 1 => [(1, 0, 0, 0), (0, 1, 0, 0), (0, 0, 1, 0), (0, 0, 0, 1)]
  | n + 2 =>
    (enumerateNucleotideCounts (n + 1)).flatMap (fun r =>
      [(r.1 + 1, r.2.1, r.2.2.1, r.2.2.2),
       (r.1, r.2.1 + 1, r.2.2.1, r.2.2.2),
       (r.1, r.2.1, r.2.2.1 + 1, r.2.2.2),
       (r.1, r.2.1, r.2.2.1, r.2.2.2 + 1)])

/-- One step of the GetUniqueReadDataVector scan: append the row unless an
equal row is already in the accumulated vector. -/
def guStep (acc : List ReadData) (row : ReadData) : List ReadData :=
  if row ∈ acc then acc else acc ++ [row]

/-- GetUniqueReadDataVector of utilities.cc (lines 248-268): scans the rows
in order and appends a row to the output vector only when an equal row is
not already present, so the first occurrence of each distinct row is kept
in order of first appearance. -/
def getUniqueReadDataVector (l : List ReadData) : List ReadData :=
  l.foldl guStep []


lemma mem_foldl_guStep (l : List ReadData) :
    ∀ (acc : List ReadData) (x : ReadData),
      x ∈ l.foldl guStep acc ↔ x ∈ acc ∨ x ∈ l := by
  induction l with
  | nil => simp
  | cons row rest ih =>
    intro acc x
    have hstep : x ∈ guStep acc row ↔ x ∈ acc ∨ x = row := by
      unfold guStep
      by_cases h : row ∈ acc
      · simp only [if_pos h]
        constructor
        · exact fun hx => Or.inl hx
        · rintro (hx | rfl)
          · exact hx
          · exact h
      · simp [if_neg h]
    rw [List.foldl_cons, ih, hstep, List.mem_cons]
    tauto

lemma nodup_foldl_guStep (l : List ReadData) :
    ∀ acc : List ReadData, acc.Nodup → (l.foldl guStep acc).Nodup := by
  induction l with
  | nil => simp only [List.foldl_nil]; exact fun _ h => h
  | cons row rest ih =>
    intro acc hacc
    rw [List.foldl_cons]
    apply ih
    unfold guStep
    by_cases h : row ∈ acc
    · simpa [if_pos h] using hacc
    · simp only [if_neg h]
      simpa [List.nodup_append] using ⟨hacc, h⟩

lemma mem_getUniqueReadDataVector (l : List ReadData) (x : ReadData) :
    x ∈ getUniqueReadDataVector l ↔ x ∈ l := by
  simpa using mem_foldl_guStep l [] x

lemma nodup_getUniqueReadDataVector (l : List ReadData) :
    (getUniqueReadDataVector l).Nodup :=
  nodup_foldl_guStep l [] List.nodup_nil

/-- Every row produced by the recursive enumeration sums to the coverage,
and conversely every 4-tuple of counts summing to the coverage is produced
(for coverage at least 1). -/
lemma mem_enumerateNucleotideCounts :
    ∀ c : ℕ, 1 ≤ c → ∀ v : ReadData,
      v ∈ enumerateNucleotideCounts c ↔ sumReads v = c := by
  intro c hc
  induction c, hc using Nat.le_induction with
  | base =>
    rintro ⟨a, b, c, d⟩
    simp only [enumerateNucleotideCounts, List.mem_cons, List.not_mem_nil,
      or_false, sumReads, Prod.mk.injEq]
    omega
  | succ n hn ih =>
    obtain ⟨m, rfl⟩ : ∃ m, n = m + 1 := ⟨n - 1, by omega⟩
    rintro ⟨a, b, c, d⟩
    show (a, b, c, d) ∈ (enumerateNucleotideCounts (m + 1)).flatMap _ ↔ _
    rw [List.mem_flatMap]
    constructor
    · rintro ⟨r, hr, hv⟩
      have hsum : sumReads r = m + 1 := (ih r).mp hr
      obtain ⟨ra, rb, rc, rd⟩ := r
      simp only [sumReads] at hsum ⊢
      simp only [List.mem_cons, List.not_mem_nil, or_false, Prod.mk.injEq] at hv
      omega
    · intro hsum
      simp only [sumReads] at hsum
      by_cases ha : 0 < a
      · refine ⟨(a - 1, b, c, d), (ih _).mpr (by simp [sumReads]; omega), ?_⟩
        simp only [List.mem_cons, List.not_mem_nil, or_false, Prod.mk.injEq, and_true,
          true_and]
        omega
      · by_cases hb : 0 < b
        · refine ⟨(a, b - 1, c, d), (ih _).mpr (by simp [sumReads]; omega), ?_⟩
          simp only [List.mem_cons, List.not_mem_nil, or_false, Prod.mk.injEq, and_true,
            true_and]
          omega
        · by_cases hc : 0 < c
          · refine ⟨(a, b, c - 1, d), (ih _).mpr (by simp [sumReads]; omega), ?_⟩
            simp only [List.mem_cons, List.not_mem_nil, or_false, Prod.mk.injEq, and_true,
              true_and]
            omega
          · refine ⟨(a, b, c, d - 1), (ih _).mpr (by simp [sumReads]; omega), ?_⟩
            simp only [List.mem_cons, List.not_mem_nil, or_false, Prod.mk.injEq, and_true,
              true_and]
            omega

/-- Hockey-stick identity used to count the stars-and-bars sets below. -/
lemma sum_choose_hockey (k : ℕ) :
    ∀ m : ℕ, (∑ j ∈ Finset.range m, Nat.choose (j + k) k) = Nat.choose (m + k) (k + 1) := by
  intro m
  induction m with
  | zero => simp [Nat.choose_eq_zero_of_lt (Nat.lt_succ_self k)]
  | succ m ih =>
    rw [Finset.sum_range_succ, ih]
    have h : m + 1 + k = (m + k) + 1 := by omega
    rw [h, Nat.choose_succ_succ (m + k) k]
    simp only [Nat.succ_eq_add_one]
    omega

/-- All ordered pairs of naturals summing to n. -/
def pairFinset (n : ℕ) : Finset (ℕ × ℕ) :=
  (Finset.range (n + 1) ×ˢ Finset.range (n + 1)).filter (fun p => p.1 + p.2 = n)

lemma mem_pairFinset (n : ℕ) (p : ℕ × ℕ) : p ∈ pairFinset n ↔ p.1 + p.2 = n := by
  simp only [pairFinset, Finset.mem_filter, Finset.mem_product, Finset.mem_range]
  omega

lemma card_pairFinset (n : ℕ) : (pairFinset n).card = Nat.choose (n + 1) 1 := by
  have himg : pairFinset n = (Finset.range (n + 1)).image (fun a => (a, n - a)) := by
    ext p
    simp only [mem_pairFinset, Finset.mem_image, Finset.mem_range, Prod.ext_iff]
    constructor
    · intro h
      exact ⟨p.1, by omega, rfl, by omega⟩
    · rintro ⟨a, ha, h1, h2⟩
      omega
  rw [himg, Finset.card_image_of_injective _ (fun x y h => congrArg Prod.fst h),
    Finset.card_range, Nat.choose_one_right]

/-- All ordered triples of naturals summing to n, organized by the first
component. -/
def tripleFinset (n : ℕ) : Finset (ℕ × ℕ × ℕ) :=
  (Finset.range (n + 1)).biUnion (fun a => (pairFinset (n - a)).image (fun p => (a, p)))

lemma mem_tripleFinset (n : ℕ) (t : ℕ × ℕ × ℕ) :
    t ∈ tripleFinset n ↔ t.1 + t.2.1 + t.2.2 = n := by
  obtain ⟨a, p⟩ := t
  simp only [tripleFinset, Finset.mem_biUnion, Finset.mem_range, Finset.mem_image,
    mem_pairFinset, Prod.mk.injEq]
  constructor
  · rintro ⟨a1, ha1, q, hq, rfl, rfl⟩
    omega
  · intro h
    exact ⟨a, by omega, p, by omega, rfl, rfl⟩

lemma card_tripleFinset (n : ℕ) : (tripleFinset n).card = Nat.choose (n + 2) 2 := by
  rw [tripleFinset, Finset.card_biUnion]
  · have hcard : ∀ a ∈ Finset.range (n + 1),
        ((pairFinset (n - a)).image (fun p => (a, p))).card = Nat.choose (n - a + 1) 1 := by
      intro a _
      rw [Finset.card_image_of_injective _ (fun x y h => (Prod.mk.injEq ..).mp h |>.2),
        card_pairFinset]
    rw [Finset.sum_congr rfl hcard]
    have hrefl : (∑ a ∈ Finset.range (n + 1), Nat.choose (n - a + 1) 1)
        = ∑ j ∈ Finset.range (n + 1), Nat.choose (j + 1) 1 := by
      rw [← Finset.sum_range_reflect]
      apply Finset.sum_congr rfl
      intro j hj
      simp only [Finset.mem_range] at hj
      congr 2
      omega
    rw [hrefl, sum_choose_hockey 1 (n + 1)]
  · intro x hx y hy hxy
    simp only [Finset.disjoint_left, Finset.mem_image]
    rintro t ⟨p, hp, rfl⟩ ⟨q, hq, hqt⟩
    exact hxy ((Prod.mk.injEq ..).mp hqt).1.symm

/-- All 4-tuples of nucleotide counts summing to n, organized by the first
component (the stars-and-bars set of size C(n+3,3)). -/
def quadFinset (n : ℕ) : Finset ReadData :=
  (Finset.range (n + 1)).biUnion (fun a => (tripleFinset (n - a)).image (fun t => (a, t)))

lemma mem_quadFinset (n : ℕ) (v : ReadData) : v ∈ quadFinset n ↔ sumReads v = n := by
  obtain ⟨a, t⟩ := v
  simp only [quadFinset, Finset.mem_biUnion, Finset.mem_range, Finset.mem_image,
    mem_tripleFinset, Prod.mk.injEq, sumReads]
  constructor
  · rintro ⟨a1, ha1, q, hq, rfl, rfl⟩
    omega
  · intro h
    exact ⟨a, by omega, t, by omega, rfl, rfl⟩

lemma card_quadFinset (n : ℕ) : (quadFinset n).card = Nat.choose (n + 3) 3 := by
  rw [quadFinset, Finset.card_biUnion]
  · have hcard : ∀ a ∈ Finset.range (n + 1),
        ((tripleFinset (n - a)).image (fun t => (a, t))).card = Nat.choose (n - a + 2) 2 := by
      intro a _
      rw [Finset.card_image_of_injective _ (fun x y h => (Prod.mk.injEq ..).mp h |>.2),
        card_tripleFinset]
    rw [Finset.sum_congr rfl hcard]
    have hrefl : (∑ a ∈ Finset.range (n + 1), Nat.choose (n - a + 2) 2)
        = ∑ j ∈ Finset.range (n + 1), Nat.choose (j + 2) 2 := by
      rw [← Finset.sum_range_reflect]
      apply Finset.sum_congr rfl
      intro j hj
      simp only [Finset.mem_range] at hj
      congr 2
      omega
    rw [hrefl, sum_choose_hockey 2 (n + 1)]
  · intro x hx y hy hxy
    simp only [Finset.disjoint_left, Finset.mem_image]
    rintro t ⟨p, hp, rfl⟩ ⟨q, hq, hqt⟩
    exact hxy ((Prod.mk.injEq ..).mp hqt).1.symm

/-- The deduplicated enumeration has exactly C(c+3,3) elements. -/
lemma length_getUnique_enum (c : ℕ) (hc : 1 ≤ c) :
    (getUniqueReadDataVector (enumerateNucleotideCounts c)).length = Nat.choose (c + 3) 3 := by
  have hnodup := nodup_getUniqueReadDataVector (enumerateNucleotideCounts c)
  have hfin : (getUniqueReadDataVector (enumerateNucleotideCounts c)).toFinset = quadFinset c := by
    ext v
    rw [List.mem_toFinset, mem_getUniqueReadDataVector,
      mem_enumerateNucleotideCounts c hc v, mem_quadFinset]
  rw [← List.toFinset_card_of_nodup hnodup, hfin, card_quadFinset]

/-- C2: for every coverage at least 1, EnumerateNucleotideCounts produces
only 4-entry count vectors (non-negative by the ℕ representation) summing
to the coverage, the base case is the 4 unit vectors, and deduplication by
GetUniqueReadDataVector yields exactly C(coverage+3,3) distinct vectors:
4 at coverage 1, 10 at coverage 2, 35 at coverage 4. -/
theorem enumerateNucleotideCounts_spec :
    (∀ c : ℕ, 1 ≤ c →
      (∀ v ∈ enumerateNucleotideCounts c, sumReads v = c) ∧
      (getUniqueReadDataVector (enumerateNucleotideCounts c)).Nodup ∧
      (getUniqueReadDataVector (enumerateNucleotideCounts c)).length = Nat.choose (c + 3) 3) ∧
    enumerateNucleotideCounts 1 = [(1, 0, 0, 0), (0, 1, 0, 0), (0, 0, 1, 0), (0, 0, 0, 1)] ∧
    (getUniqueReadDataVector (enumerateNucleotideCounts 1)).length = 4 ∧
    (getUniqueReadDataVector (enumerateNucleotideCounts 2)).length = 10 ∧
    (getUniqueReadDataVector (enumerateNucleotideCounts 4)).length = 35 := by
  refine ⟨fun c hc => ⟨?_, nodup_getUniqueReadDataVector _, length_getUnique_enum c hc⟩,
    rfl, by decide, by decide, by decide⟩
  intro v hv
  exact (mem_enumerateNucleotideCounts c hc v).mp hv

/-- Witness for the C2 theorem at coverage 2 and row (2,0,0,0). -/
theorem enumerateNucleotideCounts_spec_witness :
    ((getUniqueReadDataVector (enumerateNucleotideCounts 2)).length = Nat.choose (2 + 3) 3) ∧
    sumReads (2, 0, 0, 0) = 2 :=
  ⟨(enumerateNucleotideCounts_spec.1 2 (by decide)).2.2,
    (enumerateNucleotideCounts_spec.1 2 (by decide)).1 (2, 0, 0, 0) (by decide)⟩

/-- A trio of ReadData records (child, mother, father).  The C type is
vector of ReadData; everywhere the trio functions use it, exactly the
positions 0, 1, 2 are read, so it is modelled as a triple. -/
abbrev ReadDataVector := ReadData × ReadData × ReadData

/-- EqualsReadData of utilities.cc (lines 169-171): the four read counts
compared position-wise. -/
def equalsReadData (d1 d2 : ReadData) : Bool :=
  d1.1 == d2.1 && d1.2.1 == d2.2.1 && d1.2.2.1 == d2.2.2.1 && d1.2.2.2 == d2.2.2.2

/-- EqualsReadDataVector of utilities.cc (lines 181-191): the three trio
positions compared with EqualsReadData. -/
def equalsReadDataVector (v1 v2 : ReadDataVector) : Bool :=
  equalsReadData v1.1 v2.1 && equalsReadData v1.2.1 v2.2.1 && equalsReadData v1.2.2 v2.2.2

lemma equalsReadData_iff (d1 d2 : ReadData) : equalsReadData d1 d2 = true ↔ d1 = d2 := by
  obtain ⟨a, b, c, d⟩ := d1
  obtain ⟨e, f, g, h⟩ := d2
  simp [equalsReadData, Prod.ext_iff]
  tauto

lemma equalsReadDataVector_iff (v1 v2 : ReadDataVector) :
    equalsReadDataVector v1 v2 = true ↔ v1 = v2 := by
  obtain ⟨a, b, c⟩ := v1
  obtain ⟨d, e, f⟩ := v2
  simp [equalsReadDataVector, equalsReadData_iff, Prod.ext_iff]
  tauto

/-- GetTrioVector of utilities.cc (lines 277-290): the Cartesian cube of
the unique read-count vectors at the given coverage, ordered with the
innermost loop over the third trio member. -/
def getTrioVector (coverage : ℕ) : List ReadDataVector :=
  let dv := getUniqueReadDataVector (enumerateNucleotideCounts coverage)
  dv.flatMap (fun d1 => dv.flatMap (fun d2 => dv.map (fun d3 => (d1, d2, d3))))

/-- The scan loop of IndexOfReadDataVector: i is the index of the head of
the remaining list in the full trio vector. -/
def indexOfAux (v : ReadDataVector) : List ReadDataVector → ℕ → ℤ
  | [], _ => -1
  | t :: ts, i => if equalsReadDataVector v t then (i : ℤ) else indexOfAux v ts (i + 1)

/-- IndexOfReadDataVector of utilities.cc (lines 299-307): linear scan over
the 4x-coverage trio universe, returning the index of the first match, or
-1 when no trio matches. -/
def indexOfReadDataVector (v : ReadDataVector) : ℤ :=
  indexOfAux v (getTrioVector 4) 0

lemma indexOfAux_eq_neg_one_iff (v : ReadDataVector) :
    ∀ (l : List ReadDataVector) (i : ℕ), indexOfAux v l i = -1 ↔ v ∉ l := by
  intro l
  induction l with
  | nil => simp [indexOfAux]
  | cons t ts ih =>
    intro i
    by_cases h : equalsReadDataVector v t
    · have hv : v = t := (equalsReadDataVector_iff v t).mp h
      simp only [indexOfAux, if_pos h, List.mem_cons]
      constructor
      · intro hcontra
        omega
      · intro hcontra
        exact absurd (Or.inl hv) hcontra
    · have hv : v ≠ t := fun he => h ((equalsReadDataVector_iff v t).mpr he)
      simp only [indexOfAux, if_neg h, List.mem_cons, ih]
      tauto

lemma indexOfAux_mem (v : ReadDataVector) :
    ∀ (l : List ReadDataVector) (i : ℕ), v ∈ l →
      ∃ k : ℕ, indexOfAux v l i = (i : ℤ) + (k : ℤ) ∧ k < l.length ∧
        l.getD k default = v ∧ ∀ j < k, l.getD j default ≠ v := by
  intro l
  induction l with
  | nil => simp
  | cons t ts ih =>
    intro i hmem
    by_cases h : equalsReadDataVector v t
    · have hv : v = t := (equalsReadDataVector_iff v t).mp h
      refine ⟨0, by simp [indexOfAux, if_pos h], by simp, by simp [hv], by omega⟩
    · have hv : v ≠ t := fun he => h ((equalsReadDataVector_iff v t).mpr he)
      have hmem2 : v ∈ ts := by
        rcases List.mem_cons.mp hmem with h1 | h1
        · exact absurd h1 hv
        · exact h1
      obtain ⟨k, hk1, hk2, hk3, hk4⟩ := ih (i + 1) hmem2
      refine ⟨k + 1, ?_, by simpa using hk2, by simpa using hk3, ?_⟩
      · have : indexOfAux v (t :: ts) i = indexOfAux v ts (i + 1) := by
          simp [indexOfAux, if_neg h]
        rw [this, hk1]
        push_cast
        ring
      · intro j hj
        match j with
        | 0 => simpa using hv.symm
        | j + 1 =>
          have := hk4 j (by omega)
          simpa using this

lemma length_flatMap_const {α β : Type} (l : List α) (f : α → List β) (c : ℕ)
    (h : ∀ x ∈ l, (f x).length = c) : (l.flatMap f).length = l.length * c := by
  induction l with
  | nil => simp
  | cons x xs ih =>
    simp only [List.flatMap_cons, List.length_append, List.length_cons]
    rw [h x (by simp), ih (fun y hy => h y (by simp [hy]))]
    ring

lemma mem_getTrioVector (c : ℕ) (v : ReadDataVector) :
    v ∈ getTrioVector c ↔
      v.1 ∈ getUniqueReadDataVector (enumerateNucleotideCounts c) ∧
      v.2.1 ∈ getUniqueReadDataVector (enumerateNucleotideCounts c) ∧
      v.2.2 ∈ getUniqueReadDataVector (enumerateNucleotideCounts c) := by
  obtain ⟨a, b, d⟩ := v
  simp only [getTrioVector, List.mem_flatMap, List.mem_map, Prod.mk.injEq]
  constructor
  · rintro ⟨d1, h1, d2, h2, d3, h3, rfl, rfl, rfl⟩
    exact ⟨h1, h2, h3⟩
  · rintro ⟨h1, h2, h3⟩
    exact ⟨a, h1, b, h2, d, h3, rfl, rfl, rfl⟩

lemma length_getTrioVector (c : ℕ) :
    (getTrioVector c).length
      = (getUniqueReadDataVector (enumerateNucleotideCounts c)).length ^ 3 := by
  set dv := getUniqueReadDataVector (enumerateNucleotideCounts c) with hdv
  have hinner : ∀ d1 ∈ dv, (dv.flatMap (fun d2 => dv.map (fun d3 => (d1, d2, d3)))).length
      = dv.length * dv.length := by
    intro d1 _
    exact length_flatMap_const dv _ dv.length (fun d2 _ => by simp)
  have := length_flatMap_const dv
    (fun d1 => dv.flatMap (fun d2 => dv.map (fun d3 => (d1, d2, d3))))
    (dv.length * dv.length) hinner
  rw [getTrioVector, this]
  ring

/-- C3: GetTrioVector(4) enumerates exactly 42875 trios (the cube of the 35
unique coverage-4 count vectors), and IndexOfReadDataVector returns, by
linear scan with position-wise equality, the index of the first trio equal
to the query, in [0, 42875), or the sentinel -1 when no trio matches. -/
theorem getTrioVector_indexOf_spec :
    (getUniqueReadDataVector (enumerateNucleotideCounts 4)).length = 35 ∧
    (getTrioVector 4).length = 42875 ∧
    ∀ v : ReadDataVector,
      (indexOfReadDataVector v = -1 ↔ v ∉ getTrioVector 4) ∧
      (v ∈ getTrioVector 4 →
        ∃ k : ℕ, indexOfReadDataVector v = (k : ℤ) ∧ k < 42875 ∧
          (getTrioVector 4).getD k default = v ∧
          ∀ j < k, (getTrioVector 4).getD j default ≠ v) := by
  have h35 : (getUniqueReadDataVector (enumerateNucleotideCounts 4)).length = 35 := by decide
  have hlen : (getTrioVector 4).length = 42875 := by rw [length_getTrioVector, h35]; norm_num
  refine ⟨h35, hlen, fun v => ⟨indexOfAux_eq_neg_one_iff v _ 0, fun hv => ?_⟩⟩
  obtain ⟨k, hk1, hk2, hk3, hk4⟩ := indexOfAux_mem v (getTrioVector 4) 0 hv
  exact ⟨k, by simpa using hk1, hlen ▸ hk2, hk3, hk4⟩

/-- Witness for the C3 theorem: the all-A coverage-4 trio is found at a
valid index, and a coverage-1 trio (absent from the 4x universe) gets the
sentinel -1. -/
theorem getTrioVector_indexOf_spec_witness :
    (∃ k : ℕ, indexOfReadDataVector ((4, 0, 0, 0), (4, 0, 0, 0), (4, 0, 0, 0)) = (k : ℤ) ∧
      k < 42875 ∧
      (getTrioVector 4).getD k default = ((4, 0, 0, 0), (4, 0, 0, 0), (4, 0, 0, 0)) ∧
      ∀ j < k, (getTrioVector 4).getD j default ≠ ((4, 0, 0, 0), (4, 0, 0, 0), (4, 0, 0, 0))) ∧
    indexOfReadDataVector ((1, 0, 0, 0), (1, 0, 0, 0), (1, 0, 0, 0)) = -1 := by
  constructor
  · exact (getTrioVector_indexOf_spec.2.2 _).2 (by decide)
  · refine (getTrioVector_indexOf_spec.2.2 _).1.mpr ?_
    intro hmem
    have h1 := ((mem_getTrioVector 4 _).mp hmem).1
    have h2 := (mem_getUniqueReadDataVector _ _).mp h1
    have h3 := (mem_enumerateNucleotideCounts 4 (by decide) _).mp h2
    simp [sumReads] at h3

/-- Component i of a ReadData record, as indexed by data.reads[i]. -/
def readCount (data : ReadData) : Fin 4 → ℕ
  | 0 => data.1
  | 1 => data.2.1
  | 2 => data.2.2.1
  | 3 => data.2.2.2

/-- DirichletMultinomialLog of utilities.cc (lines 321-330).  The C lgamma
function is abstracted as a parameter: the claim is about how the code
combines its values, which holds for any function, in particular for the
real log-Gamma.  a is alpha.sum(), n the integer sum of the four reads,
and the loop accumulates lgamma(alpha(i) + reads[i]) - lgamma(alpha(i)). -/
def dirichletMultinomialLog (lgamma : ℚ → ℚ) (alpha : Fin 4 → ℚ) (data : ReadData) : ℚ :=
  let a : ℚ := ∑ i, alpha i
  let n : ℕ := data.1 + data.2.1 + data.2.2.1 + data.2.2.2
  let constantTerm : ℚ := lgamma a - lgamma ((n : ℚ) + a)
  let productTerm : ℚ := (List.finRange 4).foldl
    (fun acc i => acc + (lgamma (alpha i + (readCount data i : ℚ)) - lgamma (alpha i))) 0
  constantTerm + productTerm

/-- C4: DirichletMultinomialLog equals the closed form
logGamma(sum alpha) - logGamma(n + sum alpha)
+ sum over i of (logGamma(alpha_i + n_i) - logGamma(alpha_i)),
with n the sum of the four read counts. -/
theorem dirichletMultinomialLog_spec (lgamma : ℚ → ℚ) (alpha : Fin 4 → ℚ) (data : ReadData) :
    dirichletMultinomialLog lgamma alpha data
      = lgamma (∑ i, alpha i) - lgamma ((sumReads data : ℚ) + ∑ i, alpha i)
        + ∑ i, (lgamma (alpha i + (readCount data i : ℚ)) - lgamma (alpha i)) := by
  have hrange : (List.finRange 4) = [0, 1, 2, 3] := rfl
  simp only [dirichletMultinomialLog, sumReads, hrange, List.foldl_cons, List.foldl_nil,
    Fin.sum_univ_four]
  ring

/-- The vector-by-vector KroneckerProduct of utilities.cc (lines 385-394):
the loops write entry i*16 + j once for each pair (i, j), so the entry at
position e is vec1(e / 16) * vec2(e mod 16). -/
def kroneckerProduct (vec1 vec2 : Fin 16 → ℚ) : Fin 256 → ℚ :=
  fun e => vec1 ⟨e.val / 16, by omega⟩ * vec2 ⟨e.val % 16, by omega⟩

lemma kroneckerProduct_apply (u v : Fin 16 → ℚ) (i j : Fin 16) :
    kroneckerProduct u v ⟨i.val * 16 + j.val, by omega⟩ = u i * v j := by
  have h1 : (i.val * 16 + j.val) / 16 = i.val := by omega
  have h2 : (i.val * 16 + j.val) % 16 = j.val := by omega
  simp only [kroneckerProduct]
  congr 1
  · congr 1
    exact Fin.ext h1
  · congr 1
    exact Fin.ext h2

/-- C5: element (i*16 + j) of the 256-entry Kronecker product is
u(i) * v(j), and the entries sum to (sum of u) * (sum of v). -/
theorem kroneckerProduct_spec (u v : Fin 16 → ℚ) :
    (∀ i j : Fin 16, kroneckerProduct u v ⟨i.val * 16 + j.val, by omega⟩ = u i * v j) ∧
    (∑ e : Fin 256, kroneckerProduct u v e) = (∑ i, u i) * (∑ j, v j) := by
  refine ⟨kroneckerProduct_apply u v, ?_⟩
  have hbij : Function.Bijective
      (fun p : Fin 16 × Fin 16 => (⟨p.1.val * 16 + p.2.val, by omega⟩ : Fin 256)) := by
    constructor
    · rintro ⟨a, b⟩ ⟨c, d⟩ h
      have hval : a.val * 16 + b.val = c.val * 16 + d.val := congrArg Fin.val h
      have hb := b.isLt
      have hd := d.isLt
      have hac : a.val = c.val ∧ b.val = d.val := by omega
      exact Prod.ext (Fin.ext hac.1) (Fin.ext hac.2)
    · intro e
      refine ⟨(⟨e.val / 16, by omega⟩, ⟨e.val % 16, by omega⟩), Fin.ext ?_⟩
      have := e.isLt
      simp only
      omega
  have hpair : (∑ p : Fin 16 × Fin 16, u p.1 * v p.2) = ∑ i : Fin 16, ∑ j : Fin 16, u i * v j := by
    rw [Fintype.sum_prod_type]
  rw [Finset.sum_mul_sum, ← hpair]
  exact (Fintype.sum_bijective _ hbij _ _
    (fun p => (kroneckerProduct_apply u v p.1 p.2).symm)).symm

/-- The bin assignment of bin_driver.cc CountBin (line 86) and of
count_bin_trio.cc (line 52): (int) fmin(floor(probability * kNumBins),
kNumBins - 1) with kNumBins = 10. -/
def binOfProbability (p : ℚ) : ℤ := min ⌊p * 10⌋ 9

/-- Bump the tally of one bin by one. -/
def bumpBin (f : Fin 10 → ℕ) (b : Fin 10) : Fin 10 → ℕ :=
  fun i => if i = b then f i + 1 else f i

/-- One iteration of the CountBin loop of bin_driver.cc (lines 81-91):
totals[bin] is always incremented, counts[bin] only when the parsed
has_mutation field equals 1.  A bin outside [0, 10) would index outside
the C arrays (undefined in C); it is modelled as a no-op and is
unreachable for probabilities in [0, 1]. -/
def countBinStep (st : (Fin 10 → ℕ) × (Fin 10 → ℕ)) (line : ℚ × ℕ) :
    (Fin 10 → ℕ) × (Fin 10 → ℕ) :=
  let bin := binOfProbability line.1
  if 0 ≤ bin ∧ bin < 10 then
    let b : Fin 10 := ⟨bin.toNat % 10, Nat.mod_lt _ (by norm_num)⟩
    (if line.2 = 1 then bumpBin st.1 b else st.1, bumpBin st.2 b)
  else st

/-- CountBin of bin_driver.cc (lines 72-103): fold the parsed lines into
(counts, totals), both zero-initialized. -/
def countBin (lines : List (ℚ × ℕ)) : (Fin 10 → ℕ) × (Fin 10 → ℕ) :=
  lines.foldl countBinStep (fun _ => 0, fun _ => 0)

/-- The percentage printed for one bin: counts[i] / totals[i] * 100. -/
def hasMutationPercent (st : (Fin 10 → ℕ) × (Fin 10 → ℕ)) (b : Fin 10) : ℚ :=
  (st.1 b : ℚ) / (st.2 b : ℚ) * 100

/-- C8: the collaborator assigns p to bin min(floor(p*10), 9), in
particular 1.00 to bin 9 and, for p in [0,1], to a bin in [0,9]; on the
three input lines 0.05 0, 0.15 1, 0.95 1 it tallies one site in each of
bins 0, 1, 9 with mutation percentages 0, 100 and 100. -/
lemma countBinStep_eval (st : (Fin 10 → ℕ) × (Fin 10 → ℕ)) (p : ℚ) (f : ℕ) (b : Fin 10)
    (hb : binOfProbability p = (b.val : ℤ)) :
    countBinStep st (p, f) = (if f = 1 then bumpBin st.1 b else st.1, bumpBin st.2 b) := by
  unfold countBinStep
  dsimp only
  simp only [hb]
  rw [if_pos ⟨Int.natCast_nonneg b.val, by exact_mod_cast b.isLt⟩]
  simp only [Int.toNat_natCast, Nat.mod_eq_of_lt b.isLt, Fin.eta]

theorem countBin_spec :
    (∀ p : ℚ, binOfProbability p = min ⌊p * 10⌋ 9) ∧
    binOfProbability 1 = 9 ∧
    (∀ p : ℚ, 0 ≤ p → p ≤ 1 →
      0 ≤ binOfProbability p ∧ binOfProbability p ≤ 9) ∧
    (countBin [(1/20, 0), (3/20, 1), (19/20, 1)]).2
      = (fun b => if b = 0 ∨ b = 1 ∨ b = 9 then 1 else 0) ∧
    (countBin [(1/20, 0), (3/20, 1), (19/20, 1)]).1
      = (fun b => if b = 1 ∨ b = 9 then 1 else 0) ∧
    hasMutationPercent (countBin [(1/20, 0), (3/20, 1), (19/20, 1)]) 0 = 0 ∧
    hasMutationPercent (countBin [(1/20, 0), (3/20, 1), (19/20, 1)]) 1 = 100 ∧
    hasMutationPercent (countBin [(1/20, 0), (3/20, 1), (19/20, 1)]) 9 = 100 := by
  have hb1 : binOfProbability (1/20) = ((0 : Fin 10).val : ℤ) := by
    unfold binOfProbability
    have h : ⌊(1/20 : ℚ) * 10⌋ = 0 := by norm_num
    rw [h]
    decide
  have hb2 : binOfProbability (3/20) = ((1 : Fin 10).val : ℤ) := by
    unfold binOfProbability
    have h : ⌊(3/20 : ℚ) * 10⌋ = 1 := by norm_num
    rw [h]
    decide
  have hb3 : binOfProbability (19/20) = ((9 : Fin 10).val : ℤ) := by
    unfold binOfProbability
    have h : ⌊(19/20 : ℚ) * 10⌋ = 9 := by norm_num
    rw [h]
    decide
  have hrun : countBin [(1/20, 0), (3/20, 1), (19/20, 1)]
      = (bumpBin (bumpBin (fun _ => 0) 1) 9,
         bumpBin (bumpBin (bumpBin (fun _ => 0) 0) 1) 9) := by
    unfold countBin
    simp only [List.foldl_cons, List.foldl_nil]
    rw [countBinStep_eval _ _ _ 0 hb1, countBinStep_eval _ _ _ 1 hb2,
      countBinStep_eval _ _ _ 9 hb3]
    norm_num
  refine ⟨fun p => rfl, ?_, fun p hp0 hp1 => ?_, ?_, ?_, ?_, ?_, ?_⟩
  · unfold binOfProbability
    have h : ⌊(1 : ℚ) * 10⌋ = 10 := by norm_num
    rw [h]
    decide
  · have hfloor : (0 : ℤ) ≤ ⌊p * 10⌋ := Int.floor_nonneg.mpr (by positivity)
    unfold binOfProbability
    omega
  · rw [hrun]
    funext b
    fin_cases b <;> decide
  · rw [hrun]
    funext b
    fin_cases b <;> decide
  · rw [hrun]
    unfold hasMutationPercent
    dsimp only
    rw [show (bumpBin (bumpBin (fun _ => 0) 1) 9) (0 : Fin 10) = 0 from by decide,
      show (bumpBin (bumpBin (bumpBin (fun _ => 0) 0) 1) 9) (0 : Fin 10) = 1 from by decide]
    norm_num
  · rw [hrun]
    unfold hasMutationPercent
    dsimp only
    rw [show (bumpBin (bumpBin (fun _ => 0) 1) 9) (1 : Fin 10) = 1 from by decide,
      show (bumpBin (bumpBin (bumpBin (fun _ => 0) 0) 1) 9) (1 : Fin 10) = 1 from by decide]
    norm_num
  · rw [hrun]
    unfold hasMutationPercent
    dsimp only
    rw [show (bumpBin (bumpBin (fun _ => 0) 1) 9) (9 : Fin 10) = 1 from by decide,
      show (bumpBin (bumpBin (bumpBin (fun _ => 0) 0) 1) 9) (9 : Fin 10) = 1 from by decide]
    norm_num

/-- Witness for the C8 theorem at probability 1/2. -/
theorem countBin_spec_witness :
    (0 : ℚ) ≤ 1/2 ∧ (1 : ℚ)/2 ≤ 1 ∧
    (0 ≤ binOfProbability (1/2) ∧ binOfProbability (1/2) ≤ 9) :=
  ⟨by norm_num, by norm_num, countBin_spec.2.2.1 (1/2) (by norm_num) (by norm_num)⟩

/-- The 16 x 2 genotype-to-nucleotide-index table kGenotypeNumIndex of
utilities.cc (lines 83-92), row g listing the two nucleotide indices of
genotype g.  Out-of-range indices return 0; the modelled code paths never
use them. -/
def kGenotypeNumIndex (g a : ℕ) : ℕ :=
  (([[0, 0], [0, 1], [0, 2], [0, 3],
     [1, 0], [1, 1], [1, 2], [1, 3],
     [2, 0], [2, 1], [2, 2], [2, 3],
     [3, 0], [3, 1], [3, 2], [3, 3]].getD g []).getD a 0)

/-- GetChildGenotype of simulation_model.cc (lines 93-103): pick the allele
selected by the random bit from each parent row of the table, then scan
the 16 genotype rows for the pair (first allele from the mother, second
from the father); -1 if no row matches.  The random bits rand() mod 2 are
passed in explicitly. -/
def getChildGenotype (motherGenotype fatherGenotype : Fin 16) (r1 r2 : Fin 2) : ℤ :=
  let childAllele1 := kGenotypeNumIndex motherGenotype.val r1.val
  let childAllele2 := kGenotypeNumIndex fatherGenotype.val r2.val
  match (List.range 16).find? (fun i =>
      kGenotypeNumIndex i 0 == childAllele1 && kGenotypeNumIndex i 1 == childAllele2) with
  | some i => (i : ℤ)
  | none => -1

/-- C10: for every pair of parent genotypes and every allele choice, the
child genotype is in [0, 16); the -1 branch is unreachable because every
ordered pair of nucleotide indices occurs as a row of the table. -/
theorem getChildGenotype_spec :
    (∀ (m f : Fin 16) (r1 r2 : Fin 2),
      0 ≤ getChildGenotype m f r1 r2 ∧ getChildGenotype m f r1 r2 < 16) ∧
    (∀ a1 a2 : Fin 4, ∃ i : Fin 16,
      kGenotypeNumIndex i.val 0 = a1.val ∧ kGenotypeNumIndex i.val 1 = a2.val) := by
  constructor
  · decide
  · decide

/-- The 16 x 16 x 4 matrix state of ZeroMatrix16_16_4d/TwoParentCounts:
entry (i, j) is the 4-vector of nucleotide counts.  The C entries are
doubles written only by whole-vector zero assignments and unit increments,
so every reachable value is an integer offset from the initial value;
entries are modelled in ℤ, with the uninitialized memory contents passed
in as the initial matrix. -/
abbrev Matrix16_16_4 : Type := ℕ → ℕ → ℕ → ℤ

/-- The loop nest of ZeroMatrix16_16_4d of utilities.cc (lines 100-108).
The source inner loop reads: for (int j = 0; i < kGenotypeCount; ++i) -
its condition and increment use i, not j, so j stays 0 while i runs to 16
and only column 0 is assigned RowVector4d::Zero.  On exit i = 16, the
outer ++i makes it 17 and the outer loop stops after this single pass.
The fuel argument (17 at the call site) only makes the recursion
structural; it is never exhausted. -/
def zeroMatrixLoop : ℕ → Matrix16_16_4 → ℕ → Matrix16_16_4
  | 0, m, _ => m
  | fuel + 1, m, i =>
    if i < 16 then
      zeroMatrixLoop fuel (fun r c k => if r = i ∧ c = 0 then 0 else m r c k) (i + 1)
    else m

/-- ZeroMatrix16_16_4d of utilities.cc applied to the uninitialized
matrix m0. -/
def zeroMatrix16_16_4d (m0 : Matrix16_16_4) : Matrix16_16_4 := zeroMatrixLoop 17 m0 0

/-- One increment mat(r, c)(n)++ of TwoParentCounts. -/
def bumpCount (m : Matrix16_16_4) (r c n : ℕ) : Matrix16_16_4 :=
  fun r2 c2 k => if r2 = r ∧ c2 = c ∧ k = n then m r c n + 1 else m r2 c2 k

/-- TwoParentCounts of utilities.cc (lines 135-158): starting from the
(supposedly zeroed) matrix, for every nucleotide and genotype, each
allele of the genotype equal to the nucleotide increments that nucleotide
component across the whole row slice and the whole column slice of the
genotype. -/
def twoParentCounts (m0 : Matrix16_16_4) : Matrix16_16_4 :=
  (List.range 4).foldl (fun m n =>
    (List.range 16).foldl (fun m g =>
      (List.range 2).foldl (fun m allele =>
        if kGenotypeNumIndex g allele = n then
          (List.range 16).foldl (fun m i => bumpCount m i g n)
            ((List.range 16).foldl (fun m i => bumpCount m g i n) m)
        else m) m) m) (zeroMatrix16_16_4d m0)

/-- The number of copies of nucleotide n among the two alleles of
genotype g (0, 1 or 2). -/
def countNucInGenotype (n g : ℕ) : ℕ :=
  (if kGenotypeNumIndex g 0 = n then 1 else 0) + (if kGenotypeNumIndex g 1 = n then 1 else 0)

/-- C9: the inner loop of ZeroMatrix16_16_4d zeroes only column 0, so when
the uninitialized memory holds (say) 7, entry (0, 1) of kTwoParentCounts
ends at 7 + 3 = 10 instead of the nucleotide count 3 (mother AA and father
AC carry nucleotide A three times); entries of column 0 do receive the
intended count (shown here for the garbage-7 initial matrix), and so would
every entry if the matrix were fully zeroed (shown for entry (0, 1)). -/
theorem twoParentCounts_uninitialized_bug :
    (∀ i : Fin 16, ∀ k : Fin 4,
      twoParentCounts (fun _ _ _ => 7) i.val 0 k.val
        = (countNucInGenotype k.val i.val : ℤ) + (countNucInGenotype k.val 0 : ℤ)) ∧
    twoParentCounts (fun _ _ _ => 0) 0 1 0 = 3 ∧
    twoParentCounts (fun _ _ _ => 7) 0 1 0 = 10 ∧
    ((countNucInGenotype 0 0 : ℤ) + (countNucInGenotype 0 1 : ℤ) = 3) := by
  exact ⟨by decide, by decide, by decide, by decide⟩

/-- Modelled from the spec: trio_model.cc (the TrioModel class) is not
among the sources.  Spec section 4.2 describes the germline transition as
the distribution of a single inherited allele given a parental genotype,
perturbed by the germline rate g under the uniform substitution policy;
at g = 0 it is the unperturbed Mendelian distribution, each of the two
parental alleles with probability 1/2. -/
def germlineAllele (g : ℚ) (a : Fin 4) (p : Fin 16) : ℚ :=
  (1 - g) * (countNucInGenotype a.val p.val : ℚ) / 2 + g / 4

/-- Modelled from the spec (section 4.3 step 5): the identity-preserving
(no germline mutation event) part of the germline allele distribution,
the Mendelian part weighted by 1 - g. -/
def germlineAlleleNoMut (g : ℚ) (a : Fin 4) (p : Fin 16) : ℚ :=
  (1 - g) * (countNucInGenotype a.val p.val : ℚ) / 2

/-- The 4 x 16 to 16 x 256 Kronecker expansion of utilities.cc (lines
340-352): entry (i*4 + k, j*16 + l) = mat(i, j) * mat(k, l).  Row
r = i*4 + k is the child genotype (mother-inherited allele first), column
c = j*16 + l is mother genotype * 16 + father genotype. -/
def germlineKronecker (am : Fin 4 → Fin 16 → ℚ) : Fin 16 → Fin 256 → ℚ :=
  fun r c => am ⟨r.val / 4, by omega⟩ ⟨c.val / 16, by omega⟩
    * am ⟨r.val % 4, by omega⟩ ⟨c.val % 16, by omega⟩

/-- The germline_probability_mat of the TrioModel.  Modelled from the
spec. -/
def germlineProbabilityMat (g : ℚ) : Fin 16 → Fin 256 → ℚ :=
  germlineKronecker (germlineAllele g)

/-- Modelled from the spec (section 4.2): 4 x 4 nucleotide substitution
matrix for the somatic rate s, off-diagonal mass proportional to s spread
uniformly over the three other nucleotides. -/
def somaticNucleotideMat (s : ℚ) : Fin 4 → Fin 4 → ℚ :=
  fun i j => if i = j then 1 - s else s / 3

/-- Modelled from the spec (section 4.3 step 5): the identity-preserving
part of the nucleotide substitution matrix. -/
def somaticNucleotideNoMut (s : ℚ) : Fin 4 → Fin 4 → ℚ :=
  fun i j => if i = j then 1 - s else 0

/-- The 4 x 4 to 16 x 16 Kronecker expansion of utilities.cc (lines
362-374): entry (i*4 + k, j*4 + l) = mat(i, j) * mat(k, l). -/
def somaticKronecker (nm : Fin 4 → Fin 4 → ℚ) : Fin 16 → Fin 16 → ℚ :=
  fun r c => nm ⟨r.val / 4, by omega⟩ ⟨c.val / 4, by omega⟩
    * nm ⟨r.val % 4, by omega⟩ ⟨c.val % 4, by omega⟩

/-- The somatic_probability_mat of the TrioModel.  Modelled from the
spec. -/
def somaticProbabilityMat (s : ℚ) : Fin 16 → Fin 16 → ℚ :=
  somaticKronecker (somaticNucleotideMat s)

/-- Modelled from the spec (section 4.3 step 2): right-multiply a
16-genotype likelihood row by the 16 x 16 somatic transition. -/
def somaticPeel (somMat : Fin 16 → Fin 16 → ℚ) (likelihood : Fin 16 → ℚ) : Fin 16 → ℚ :=
  fun j => ∑ i, likelihood i * somMat i j

/-- Modelled from the spec (section 4.3 step 3): propagate the child
zygotic-genotype vector through the germline transition into the joint
parent space. -/
def germlinePeel (germMat : Fin 16 → Fin 256 → ℚ) (childZygotic : Fin 16 → ℚ) :
    Fin 256 → ℚ :=
  fun p => ∑ c2, germMat c2 p * childZygotic c2

/-- Modelled from the spec (section 4.3 steps 1-4): the root combination
for one trio, for given somatic and germline transition matrices.  S r is
the sequencing-likelihood row of individual r (0 child, 1 mother,
2 father); prior is the 256-entry joint parent prior.  The result is the
total marginal mass P(R). -/
def peelSum (somMat : Fin 16 → Fin 16 → ℚ) (germMat : Fin 16 → Fin 256 → ℚ)
    (S : Fin 3 → Fin 16 → ℚ) (prior : Fin 256 → ℚ) : ℚ :=
  ∑ p, germlinePeel germMat (somaticPeel somMat (S 0)) p
    * (kroneckerProduct (somaticPeel somMat (S 1)) (somaticPeel somMat (S 2)) p * prior p)

/-- Modelled from the spec (section 4.3 step 5): the mutation probability
is the complement of the no-mutation mass divided by the total marginal,
the numerator peeling using only the identity-preserving parts of the two
transitions. -/
def mutationProbability (g s : ℚ) (S : Fin 3 → Fin 16 → ℚ) (prior : Fin 256 → ℚ) : ℚ :=
  1 - peelSum (somaticKronecker (somaticNucleotideNoMut s))
        (germlineKronecker (germlineAlleleNoMut g)) S prior
      / peelSum (somaticProbabilityMat s) (germlineProbabilityMat g) S prior

lemma germlineAllele_zero : germlineAllele 0 = germlineAlleleNoMut 0 := by
  funext a p
  unfold germlineAllele germlineAlleleNoMut
  ring

lemma somaticNucleotideMat_zero : somaticNucleotideMat 0 = somaticNucleotideNoMut 0 := by
  funext i j
  unfold somaticNucleotideMat somaticNucleotideNoMut
  by_cases h : i = j <;> simp [h]

/-- With both rates zero the numerator and denominator peels coincide, so
the mutation probability is exactly zero whenever the marginal is not
degenerate. -/
lemma mutationProbability_zero_rates (S : Fin 3 → Fin 16 → ℚ) (prior : Fin 256 → ℚ)
    (h : peelSum (somaticProbabilityMat 0) (germlineProbabilityMat 0) S prior ≠ 0) :
    mutationProbability 0 0 S prior = 0 := by
  unfold mutationProbability
  rw [show germlineKronecker (germlineAlleleNoMut 0) = germlineProbabilityMat 0 by
      unfold germlineProbabilityMat
      rw [germlineAllele_zero],
    show somaticKronecker (somaticNucleotideNoMut 0) = somaticProbabilityMat 0 by
      unfold somaticProbabilityMat
      rw [somaticNucleotideMat_zero]]
  rw [div_self h]
  ring

/-- At somatic rate zero the 16 x 16 somatic transition is the identity
matrix, so a somatic Mutate draw can only return its input genotype. -/
lemma somaticProbabilityMat_zero_id (r c : Fin 16) :
    somaticProbabilityMat 0 r c = if r = c then 1 else 0 := by
  unfold somaticProbabilityMat somaticKronecker somaticNucleotideMat
  have hval : (r = c) ↔ (r.val / 4 = c.val / 4 ∧ r.val % 4 = c.val % 4) := by
    rw [Fin.ext_iff]
    omega
  by_cases h1 : r.val / 4 = c.val / 4 <;> by_cases h2 : r.val % 4 = c.val % 4 <;>
    simp [Fin.mk.injEq, h1, h2, hval]

lemma sum_countNuc_nat : ∀ p : Fin 16, (∑ a : Fin 4, countNucInGenotype a.val p.val) = 2 := by
  decide

lemma sum_germlineAllele (g : ℚ) (p : Fin 16) : (∑ a : Fin 4, germlineAllele g a p) = 1 := by
  unfold germlineAllele
  rw [Finset.sum_add_distrib]
  have h1 : (∑ a : Fin 4, (1 - g) * (countNucInGenotype a.val p.val : ℚ) / 2)
      = ∑ a : Fin 4, ((1 - g) / 2) * (countNucInGenotype a.val p.val : ℚ) :=
    Finset.sum_congr rfl (fun a _ => by ring)
  have h2 : (∑ a : Fin 4, (countNucInGenotype a.val p.val : ℚ)) = 2 := by
    rw [← Nat.cast_sum, sum_countNuc_nat p]
    norm_num
  rw [h1, ← Finset.mul_sum, h2]
  simp only [Finset.sum_const, Finset.card_univ, Fintype.card_fin, nsmul_eq_mul]
  ring

/-- Factorization of a sum over Fin 16 through the 4 x 4 Kronecker index
decomposition r = i*4 + k. -/
lemma sum_fin16_factor (F : Fin 16 → ℚ) (f h : Fin 4 → ℚ)
    (hF : ∀ i j : Fin 4, F ⟨i.val * 4 + j.val, by omega⟩ = f i * h j) :
    (∑ r, F r) = (∑ i, f i) * (∑ k, h k) := by
  have hbij : Function.Bijective
      (fun p : Fin 4 × Fin 4 => (⟨p.1.val * 4 + p.2.val, by omega⟩ : Fin 16)) := by
    constructor
    · rintro ⟨a, b⟩ ⟨c, d⟩ hpq
      have hval : a.val * 4 + b.val = c.val * 4 + d.val := congrArg Fin.val hpq
      have hb := b.isLt
      have hd := d.isLt
      have hac : a.val = c.val ∧ b.val = d.val := by omega
      exact Prod.ext (Fin.ext hac.1) (Fin.ext hac.2)
    · intro e
      refine ⟨(⟨e.val / 4, by omega⟩, ⟨e.val % 4, by omega⟩), Fin.ext ?_⟩
      have := e.isLt
      simp only
      omega
  have hpair : (∑ p : Fin 4 × Fin 4, f p.1 * h p.2) = (∑ i, f i) * (∑ k, h k) := by
    rw [Finset.sum_mul_sum]
    rw [Fintype.sum_prod_type]
  rw [← hpair]
  exact (Fintype.sum_bijective _ hbij _ _ (fun p => (hF p.1 p.2).symm)).symm

/-- At germline rate zero every column of the germline transition (a
distribution over child genotypes given the parent pair) sums to one. -/
lemma sum_col_germlineProbabilityMat (g : ℚ) (p : Fin 256) :
    (∑ c2 : Fin 16, germlineProbabilityMat g c2 p) = 1 := by
  unfold germlineProbabilityMat germlineKronecker
  calc (∑ c2 : Fin 16, germlineAllele g ⟨c2.val / 4, by omega⟩ ⟨p.val / 16, by omega⟩
        * germlineAllele g ⟨c2.val % 4, by omega⟩ ⟨p.val % 16, by omega⟩)
      = (∑ i : Fin 4, germlineAllele g i ⟨p.val / 16, by omega⟩)
        * (∑ k : Fin 4, germlineAllele g k ⟨p.val % 16, by omega⟩) := by
        apply sum_fin16_factor
        intro i j
        have hi := i.isLt
        have hj := j.isLt
        congr 1
        · congr 1
          exact Fin.ext (by simp only; omega)
        · congr 1
          exact Fin.ext (by simp only; omega)
    _ = 1 := by
        rw [sum_germlineAllele, sum_germlineAllele]
        norm_num

/-- With both rates zero and all likelihoods and priors equal to one, the
marginal peel evaluates to 256. -/
lemma peelSum_const_one :
    peelSum (somaticProbabilityMat 0) (germlineProbabilityMat 0)
      (fun _ _ => 1) (fun _ => 1) = 256 := by
  unfold peelSum
  have hsom : somaticPeel (somaticProbabilityMat 0) (fun _ => 1) = fun _ => 1 := by
    funext j
    unfold somaticPeel
    calc (∑ i, (1 : ℚ) * somaticProbabilityMat 0 i j)
        = ∑ i : Fin 16, (if i = j then 1 else 0) := by
          apply Finset.sum_congr rfl
          intro i _
          rw [one_mul, somaticProbabilityMat_zero_id]
      _ = 1 := by simp
  rw [hsom]
  have hgerm : germlinePeel (germlineProbabilityMat 0) (fun _ => 1) = fun _ => 1 := by
    funext p
    unfold germlinePeel
    simp only [mul_one]
    exact sum_col_germlineProbabilityMat 0 p
  rw [hgerm]
  have hkron : kroneckerProduct (fun _ => (1 : ℚ)) (fun _ => 1) = fun _ => 1 := by
    funext p
    unfold kroneckerProduct
    norm_num
  rw [hkron]
  simp

/-- Mutate of simulation_model.cc (lines 64-83): RandomDiscreteChoice
draws a genotype index using a row or column of the somatic or germline
matrix as weights (only indices of positive weight can be drawn; the
drawn index is passed in explicitly), and has_mutation is set when the
drawn index differs from the input genotype index and left unchanged
otherwise. -/
def mutate (drawn : Fin 16) (genotypeIdx : ℤ) (hasMutation : Bool) : ℤ × Bool :=
  ((drawn.val : ℤ), if (drawn.val : ℤ) ≠ genotypeIdx then true else hasMutation)

/-- C1: at rates zero the engine's mutation probability is zero (shown at
a non-degenerate input) and the somatic transition is the identity, so a
somatic Mutate draw cannot set the flag; but the germline Mutate draw for
the child is taken from the germline matrix column of the parent pair,
which at rate zero is the Mendelian distribution rather than a point mass
on the already-drawn child genotype: for mother AC (genotype 1) and
father AA (genotype 0) the Mendelian draw can give child AA (genotype 0)
while the germline draw CA (genotype 4) has weight 1/2, and Mutate then
sets has_mutation even though both rates are zero. -/
theorem rate_zero_mutation_flag_bug :
    mutationProbability 0 0 (fun _ _ => 1) (fun _ => 1) = 0 ∧
    (∀ r c : Fin 16, somaticProbabilityMat 0 r c = if r = c then 1 else 0) ∧
    germlineProbabilityMat 0 4 16 = 1/2 ∧
    getChildGenotype 1 0 0 0 = 0 ∧
    mutate 4 (getChildGenotype 1 0 0 0) false = (4, true) := by
  refine ⟨mutationProbability_zero_rates _ _ (by rw [peelSum_const_one]; norm_num),
    somaticProbabilityMat_zero_id, ?_, by decide, by decide⟩
  have h : germlineProbabilityMat 0 4 16 = germlineAllele 0 1 1 * germlineAllele 0 0 0 := rfl
  rw [h]
  unfold germlineAllele
  rw [show countNucInGenotype (1 : Fin 4).val (1 : Fin 16).val = 1 from by decide,
    show countNucInGenotype (0 : Fin 4).val (0 : Fin 16).val = 2 from by decide]
  norm_num

/-- Modelled from the spec: the TrioModel mutation-rate setters
(trio_model.cc is not among the sources; the setters of
simulation_model.cc lines 253-263 delegate to them).  Spec sections 4.2
and 7 require any rate outside [0, 1] to be rejected before the
transition matrix is built, with no partial state produced; on success
the state is the matrix built from the accepted rate. -/
def setGermlineMutationRate (rate : ℚ) : Option (Fin 16 → Fin 256 → ℚ) :=
  if 0 ≤ rate ∧ rate ≤ 1 then some (germlineProbabilityMat rate) else none

/-- Modelled from the spec: the somatic-rate setter, as for
setGermlineMutationRate. -/
def setSomaticMutationRate (rate : ℚ) : Option (Fin 16 → Fin 16 → ℚ) :=
  if 0 ≤ rate ∧ rate ≤ 1 then some (somaticProbabilityMat rate) else none

/-- C6: every call with a rate outside [0, 1] fails before any matrix is
built: the setter yields no state at all, so no transition matrix
reflecting the invalid rate exists. -/
theorem setMutationRate_rejects (rate : ℚ) (h : rate < 0 ∨ 1 < rate) :
    setGermlineMutationRate rate = none ∧ setSomaticMutationRate rate = none := by
  refine ⟨?_, ?_⟩
  · unfold setGermlineMutationRate
    rw [if_neg]
    rintro ⟨h1, h2⟩
    rcases h with h3 | h3 <;> linarith
  · unfold setSomaticMutationRate
    rw [if_neg]
    rintro ⟨h1, h2⟩
    rcases h with h3 | h3 <;> linarith

/-- Witness for the C6 theorem at rate 2. -/
theorem setMutationRate_rejects_witness :
    ((2 : ℚ) < 0 ∨ 1 < (2 : ℚ)) ∧
    setGermlineMutationRate 2 = none ∧ setSomaticMutationRate 2 = none :=
  ⟨Or.inr (by norm_num), setMutationRate_rejects 2 (Or.inr (by norm_num))⟩

/-- The random draws consumed by one site of WriteProbability
(simulation_model.cc lines 144-191): the sampled joint parent index, the
two rand() mod 2 allele picks, the four categorical Mutate draws, and the
three Dirichlet-multinomial read draws. -/
structure SiteDraws where
  parentPair : Fin 256
  motherAllele : Fin 2
  fatherAllele : Fin 2
  germlineDraw : Fin 16
  childSomaticDraw : Fin 16
  motherSomaticDraw : Fin 16
  fatherSomaticDraw : Fin 16
  childRead : ReadData
  motherRead : ReadData
  fatherRead : ReadData

/-- One loop body of WriteProbability: mother = pair mod 16, father =
pair / 16, Mendelian child via GetChildGenotype, one germline Mutate for
the child at parent index mother*16 + father, one somatic Mutate for each
of child, mother and father, reads for the three somatic genotypes, then
the line (probability, flag as 0/1) is produced and the flag is reset to
false.  probabilityFn abstracts TrioModel::MutationProbability
(trio_model.cc is not among the sources); per the spec it depends only on
the trio of reads and the fixed parameters and leaves the flag alone. -/
def writeProbabilityStep (probabilityFn : ReadDataVector → ℚ) (d : SiteDraws)
    (hasMutation : Bool) : (ℚ × ℕ) × Bool :=
  let motherGenotype : Fin 16 := ⟨d.parentPair.val % 16, by omega⟩
  let fatherGenotype : Fin 16 :=
    ⟨d.parentPair.val / 16, by have := d.parentPair.isLt; omega⟩
  let childGenotype :=
    getChildGenotype motherGenotype fatherGenotype d.motherAllele d.fatherAllele
  let g1 := mutate d.germlineDraw childGenotype hasMutation
  let g2 := mutate d.childSomaticDraw g1.1 g1.2
  let g3 := mutate d.motherSomaticDraw (motherGenotype.val : ℤ) g2.2
  let g4 := mutate d.fatherSomaticDraw (fatherGenotype.val : ℤ) g3.2
  ((probabilityFn (d.childRead, d.motherRead, d.fatherRead), if g4.2 then 1 else 0), false)

/-- The fold of WriteProbability over the sites: append the written line,
carry the flag state. -/
def writeProbabilityFold (probabilityFn : ReadDataVector → ℚ)
    (acc : List (ℚ × ℕ) × Bool) (d : SiteDraws) : List (ℚ × ℕ) × Bool :=
  let step := writeProbabilityStep probabilityFn d acc.2
  (acc.1 ++ [step.1], step.2)

/-- WriteProbability of simulation_model.cc (lines 144-191) on
experiment_count = draws.length sites; the flag of the freshly
constructed model starts false (trio_model.cc is not among the sources;
the spec prescribes the reset discipline). -/
def writeProbability (probabilityFn : ReadDataVector → ℚ) (draws : List SiteDraws) :
    List (ℚ × ℕ) × Bool :=
  draws.foldl (writeProbabilityFold probabilityFn) ([], false)

/-- Whether at least one of the four Mutate draws of one site differs
from its input genotype: the germline draw against the Mendelian child,
the child somatic draw against the germline draw, and the mother and
father somatic draws against the respective parent genotypes. -/
def siteHasMutation (d : SiteDraws) : Bool :=
  let motherGenotype : Fin 16 := ⟨d.parentPair.val % 16, by omega⟩
  let fatherGenotype : Fin 16 :=
    ⟨d.parentPair.val / 16, by have := d.parentPair.isLt; omega⟩
  let childGenotype :=
    getChildGenotype motherGenotype fatherGenotype d.motherAllele d.fatherAllele
  decide ((d.germlineDraw.val : ℤ) ≠ childGenotype)
    || decide ((d.childSomaticDraw.val : ℤ) ≠ (d.germlineDraw.val : ℤ))
    || decide ((d.motherSomaticDraw.val : ℤ) ≠ (motherGenotype.val : ℤ))
    || decide ((d.fatherSomaticDraw.val : ℤ) ≠ (fatherGenotype.val : ℤ))

/-- The line written for one site. -/
def siteLine (probabilityFn : ReadDataVector → ℚ) (d : SiteDraws) : ℚ × ℕ :=
  (probabilityFn (d.childRead, d.motherRead, d.fatherRead),
    if siteHasMutation d then 1 else 0)

lemma writeProbabilityStep_false (probabilityFn : ReadDataVector → ℚ) (d : SiteDraws) :
    writeProbabilityStep probabilityFn d false = (siteLine probabilityFn d, false) := by
  unfold writeProbabilityStep siteLine siteHasMutation mutate
  dsimp only
  by_cases h1 : ((d.germlineDraw.val : ℤ)
      ≠ getChildGenotype ⟨d.parentPair.val % 16, by omega⟩
        ⟨d.parentPair.val / 16, by have := d.parentPair.isLt; omega⟩
        d.motherAllele d.fatherAllele) <;>
    by_cases h2 : ((d.childSomaticDraw.val : ℤ) ≠ (d.germlineDraw.val : ℤ)) <;>
    by_cases h3 : ((d.motherSomaticDraw.val : ℤ) ≠ ((d.parentPair.val % 16 : ℕ) : ℤ)) <;>
    by_cases h4 : ((d.fatherSomaticDraw.val : ℤ) ≠ ((d.parentPair.val / 16 : ℕ) : ℤ)) <;>
    simp [h1, h2, h3, h4, or_comm]

lemma writeProbability_go (probabilityFn : ReadDataVector → ℚ) :
    ∀ (draws : List SiteDraws) (acc : List (ℚ × ℕ)),
      draws.foldl (writeProbabilityFold probabilityFn) (acc, false)
        = (acc ++ draws.map (siteLine probabilityFn), false) := by
  intro draws
  induction draws with
  | nil => simp
  | cons d ds ih =>
    intro acc
    rw [List.foldl_cons]
    have hstep : writeProbabilityFold probabilityFn (acc, false) d
        = (acc ++ [siteLine probabilityFn d], false) := by
      unfold writeProbabilityFold
      rw [writeProbabilityStep_false]
    rw [hstep, ih, List.map_cons, List.append_assoc]
    rfl

/-- C7: WriteProbability writes exactly one line per site, the line pairs
the probability of the generated trio with the flag 1 exactly when one of
the site's four Mutate draws differed from its input genotype, and the
flag is reset after each write, so no site's flag leaks into the next
(the final state is false again). -/
theorem writeProbability_spec (probabilityFn : ReadDataVector → ℚ)
    (draws : List SiteDraws) :
    writeProbability probabilityFn draws
      = (draws.map (siteLine probabilityFn), false) ∧
    (writeProbability probabilityFn draws).1.length = draws.length := by
  have h := writeProbability_go probabilityFn draws []
  rw [List.nil_append] at h
  have h2 : writeProbability probabilityFn draws
      = (draws.map (siteLine probabilityFn), false) := h
  exact ⟨h2, by rw [h2]; simp⟩

end NovoMuta
